import Mathlib

/-!
# Verification of the KnowCLIP UMLS grounding engine

Shallow embedding of `src/knowledge/ontology_grounding.py` (class
`UMLSExactMatcher`) and proofs about its normalization, key generation,
measurement exclusion, candidate ranking, semantic-type filtering and the
single-scan batch protocol.

Python strings are modelled as Lean `String`s operated on through their
`List Char` data; the ASCII fragment of Python's `str.lower`, `\s`, `\d`
and `\w` semantics is used (all inputs of interest are ASCII).
-/

namespace KnowCLIP

open List

/-! ## Character classes (ASCII fragment of Python's regex classes) -/

/-- Python `\s` on ASCII: space, tab, newline, vertical tab, form feed,
carriage return. -/
def pyIsSpace (c : Char) : Bool :=
  c = ' ' || c = '\t' || c = '\n' || c = '\x0b' || c = '\x0c' || c = '\r'

/-- ASCII lowercase letter. -/
def isLowerAZ (c : Char) : Bool := 'a' ≤ c && c ≤ 'z'

/-- ASCII digit, Python `\d` (ASCII fragment). -/
def isDigitC (c : Char) : Bool := '0' ≤ c && c ≤ '9'

/-- Python `\w` (ASCII fragment): letters, digits, underscore. -/
def isWordC (c : Char) : Bool :=
  isDigitC c || isLowerAZ c || ('A' ≤ c && c ≤ 'Z') || c = '_'

/-! ## List-of-characters utilities mirroring the Python string operations -/

/-- `str.lower()` on the ASCII fragment (`Char.toLower` maps A-Z to a-z). -/
def lowerL (l : List Char) : List Char := l.map Char.toLower

/-- `lstrip`: drop leading whitespace. -/
def lstripL (l : List Char) : List Char := l.dropWhile pyIsSpace

/-- `rstrip`: drop trailing whitespace. -/
def rstripL : List Char → List Char
  | [] => []
  | c :: cs =>
    match rstripL cs with
    | [] => if pyIsSpace c then [] else [c]
    | r => c :: r

/-- `str.strip()`: drop leading and trailing whitespace. -/
def pyStrip (l : List Char) : List Char := lstripL (rstripL l)

/-- `re.sub(r"\s+", " ", s)`: replace each maximal whitespace run by a
single space (a space is not duplicated when the collapsed tail already
starts the same run's single space). -/
def collapseWS : List Char → List Char
  | [] => []
  | c :: cs =>
    if pyIsSpace c then
      if (collapseWS cs).head? = some ' ' then collapseWS cs
      else ' ' :: collapseWS cs
    else
      c :: collapseWS cs

/-- `str.split()` (no argument): split on whitespace runs, no empty parts.
The accumulator holds the current in-progress token reversed. -/
def splitWSAux : List Char → List Char → List String
  | [], acc => if acc.isEmpty then [] else [⟨acc.reverse⟩]
  | c :: cs, acc =>
    if pyIsSpace c then
      if acc.isEmpty then splitWSAux cs [] else ⟨acc.reverse⟩ :: splitWSAux cs []
    else
      splitWSAux cs (c :: acc)

/-- `str.split()` on a string. -/
def pySplitWS (s : String) : List String := splitWSAux s.data []

/-- `str.split("|")`: split on the field delimiter, keeping empty parts. -/
def splitBarAux : List Char → List Char → List String
  | [], acc => [⟨acc.reverse⟩]
  | c :: cs, acc =>
    if c = '|' then ⟨acc.reverse⟩ :: splitBarAux cs [] else splitBarAux cs (c :: acc)

def pySplitBar (s : String) : List String := splitBarAux s.data []

/-- `line.rstrip("\n")`: drop trailing newline characters. -/
def rstripNl (l : List Char) : List Char :=
  (l.reverse.dropWhile (· = '\n')).reverse

/-- `" ".join(ts)`. -/
def joinSpace : List String → String
  | [] => ""
  | [t] => t
  | t :: ts => t ++ " " ++ joinSpace ts

/-! ## The measurement regex `MEAS_RE = \b\d+(\.\d+)?\s*(mm|cm|m)\b`

Embedded as a direct decidable matcher: `measMatchAt prevW cs` decides
whether a match of the pattern starts exactly at the head of `cs`, where
`prevW` says whether the character before `cs` is a word character (for the
leading `\b`); `measSearchAux` tries every start position, which is what
`re.search` does. Backtracking into the optional fraction group and the
`mm|cm|m` alternation is enumerated explicitly; the greedy `\d+` and `\s*`
need no backtracking because no digit or whitespace can start the
subsequent part of the pattern. -/

/-- Split off the maximal leading digit run. -/
def takeDigits : List Char → List Char × List Char
  | [] => ([], [])
  | c :: cs =>
    if isDigitC c then
      let p := takeDigits cs
      (c :: p.1, p.2)
    else ([], c :: cs)

/-- The suffixes that can remain after the `(mm|cm|m)` alternation consumes
input at the head of the list, in the order the regex engine tries them. -/
def unitRests : List Char → List (List Char)
  | 'm' :: 'm' :: rest => [rest, 'm' :: rest]
  | 'c' :: 'm' :: rest => [rest]
  | 'm' :: rest => [rest]
  | _ => []

/-- The trailing `\b`: end of input or a non-word character. -/
def atBoundary : List Char → Bool
  | [] => true
  | c :: _ => !isWordC c

/-- Does a match of `MEAS_RE` start at the head of `cs`? -/
def measMatchAt (prevW : Bool) (cs : List Char) : Bool :=
  if prevW then false
  else
    match takeDigits cs with
    | ([], _) => false
    | (_ :: _, rest1) =>
      let fracRests : List (List Char) :=
        match rest1 with
        | '.' :: cs2 =>
          (match takeDigits cs2 with
           | ([], _) => []
           | (_ :: _, rest2) => [rest2])
        | _ => []
      (fracRests ++ [rest1]).any fun t =>
        (unitRests (t.dropWhile pyIsSpace)).any atBoundary

def measSearchAux : Bool → List Char → Bool
  | _, [] => false
  | prevW, c :: cs => measMatchAt prevW (c :: cs) || measSearchAux (isWordC c) cs

/-- `bool(MEAS_RE.search(s))`. -/
def MEAS_RE_search (s : String) : Bool := measSearchAux false s.data

/-! ## Boolean lexicographic comparators

Python sorts by tuple keys compared lexicographically with `<`. We build
the comparison as a Bool-valued `≤` from component comparators, and prove
totality, transitivity and antisymmetry assuming them of the components. -/

/-- Lexicographic `≤` on pairs from `≤` comparators on the components:
`x ≤ y` iff `x.1 < y.1`, or `x.1 = y.1` and `x.2 ≤ y.2`; with only a `≤`
comparator available, `x.1 < y.1` is `la x.1 y.1 ∧ ¬ la y.1 x.1` and
`x.1 = y.1` is `la x.1 y.1 ∧ la y.1 x.1`. -/
def lexLeB (la : α → α → Bool) (lb : β → β → Bool) (x y : α × β) : Bool :=
  if la x.1 y.1 then (if la y.1 x.1 then lb x.2 y.2 else true) else false

/-- `≤` comparator on `Nat`. -/
def natLeB (a b : Nat) : Bool := decide (a ≤ b)

/-- `≤` comparator on `String` (code-point lexicographic, as in Python). -/
def strLeB (a b : String) : Bool := decide (a ≤ b)

/-! ## Stable insertion sort

`list.sort(key=...)` in Python is a stable sort by a total preorder; for
the preorders used here the sort keys are injective on the lists being
sorted, so any sort agreeing with the ascending key order computes the same
list. We use a stable insertion sort. -/

def insertBy (le : α → α → Bool) (a : α) : List α → List α
  | [] => [a]
  | b :: bs => if le a b then a :: b :: bs else b :: insertBy le a bs

def isortBy (le : α → α → Bool) : List α → List α
  | [] => []
  | a :: as => insertBy le a (isortBy le as)

/-- `sorted(set(l))` on strings: deduplicate, then sort ascending. -/
def sortedDedupStr (l : List String) : List String := isortBy strLeB l.dedup

/-! ## The embedding of `UMLSExactMatcher` (src/knowledge/ontology_grounding.py) -/

/-- The class constant `STOP`. -/
def STOP : List String :=
  ["no", "not", "without", "with", "of", "in", "on", "at", "the", "a", "an",
   "and", "or", "to", "for"]

/-- The class constant `LATERAL`. -/
def LATERAL : List String := ["left", "right", "bilateral", "bl", "b", "l", "r"]

/-- The class constant `SEVERITY`. -/
def SEVERITY : List String :=
  ["mild", "mildly", "moderate", "moderately", "severe", "marked", "slight",
   "small", "tiny", "minimal", "possible", "likely"]

/-- The class constant `KEYTYPE_PRIORITY`, as the lookup
`KEYTYPE_PRIORITY.get(ktype, 9)`. -/
def KEYTYPE_PRIORITY_get (ktype : String) : Nat :=
  if ktype = "full_norm" then 0
  else if ktype = "full_can" then 1
  else if ktype = "head" then 2
  else 9

/-- `normalize_text`: lowercase and strip, collapse whitespace runs to a
single space, then delete every character outside `[a-z0-9\s\-]`. -/
def normalize_text (s : String) : String :=
  ⟨(collapseWS (pyStrip (lowerL s.data))).filter
      (fun c => isLowerAZ c || isDigitC c || pyIsSpace c || c = '-')⟩

/-- `canonicalize_surface`: lowercase and strip, replace `-` and `/` by a
space, replace every character outside `[a-z0-9\s]` by a space, collapse
whitespace runs and strip. -/
def canonicalize_surface (s : String) : String :=
  ⟨pyStrip (collapseWS
      (((pyStrip (lowerL s.data)).map
          (fun c => if c = '-' || c = '/' then ' ' else c)).map
        (fun c => if isLowerAZ c || isDigitC c || pyIsSpace c then c else ' ')))⟩

/-- `is_measurement_like`: `bool(MEAS_RE.search(s))`. -/
def is_measurement_like (s : String) : Bool := MEAS_RE_search s

/-- Key for `sorted(set(cands), key=lambda x: (-len(x.split()), x))` in
`head_candidates`: descending token count, then ascending lexicographic. -/
def headLeB (a b : String) : Bool :=
  let na := (pySplitWS a).length
  let nb := (pySplitWS b).length
  if nb < na then true
  else if na < nb then false
  else strLeB a b

/-- `head_candidates`: tokenize the canonical form, drop stopwords, then
laterality and severity terms; emit the trailing 1-, 2- and 3-token
windows; deduplicate and sort by `(-len(x.split()), x)`. -/
def head_candidates (canonical : String) : List String :=
  let toks1 := (pySplitWS canonical).filter (fun t => ¬ t = "" ∧ ¬ t ∈ STOP)
  let toks := toks1.filter (fun t => ¬ t ∈ LATERAL ∧ ¬ t ∈ SEVERITY)
  let cands :=
    (if toks.length ≥ 1 then [joinSpace (toks.drop (toks.length - 1))] else []) ++
    (if toks.length ≥ 2 then [joinSpace (toks.drop (toks.length - 2))] else []) ++
    (if toks.length ≥ 3 then [joinSpace (toks.drop (toks.length - 3))] else [])
  isortBy headLeB cands.dedup

/-- A candidate record appended during the reference scan (the dict built
at lines 209-217 of `ontology_grounding.py`). -/
structure Cand where
  cui : String
  sab : String
  tty : String
  ispref : String
  surface : String
  matched_key : String
  matched_key_type : String
deriving DecidableEq, Repr

/-- The matcher state set up by `UMLSExactMatcher.__init__` (the
`mrconso_path` attribute is replaced by passing the file's lines to
`map_mentions_to_cui` directly). `sab_preference` keeps the attribute's
`Optional[List[str]]` type; the constructor always stores `some` list. -/
structure UMLSExactMatcher where
  sab_preference : Option (List String)
  top_k : Nat
  use_mrsty_filter : Bool
  cui_to_tuis : String → List String
  anatomy_tuis : List String
  observation_tuis : List String

/-- `UMLSExactMatcher.__init__`: `sab_preference or ["SNOMEDCT_US",
"RXNORM", "MSH"]` — Python `or` replaces both `None` and the empty list by
the default. `cui_to_tuis`, `anatomy_tuis` and `observation_tuis` default
to empty. -/
def mkUMLSExactMatcher (sab_preference : Option (List String)) (top_k : Nat)
    (use_mrsty_filter : Bool) (cui_to_tuis : Option (String → List String))
    (anatomy_tuis observation_tuis : Option (List String)) : UMLSExactMatcher :=
  { sab_preference :=
      some (match sab_preference with
            | none => ["SNOMEDCT_US", "RXNORM", "MSH"]
            | some [] => ["SNOMEDCT_US", "RXNORM", "MSH"]
            | some l => l)
    top_k := top_k
    use_mrsty_filter := use_mrsty_filter
    cui_to_tuis := match cui_to_tuis with
                   | none => fun _ => []
                   | some f => f
    anatomy_tuis := anatomy_tuis.getD []
    observation_tuis := observation_tuis.getD [] }

/-- The composite sort key type returned by `_rank_candidate`. -/
abbrev RankT : Type := Nat × Nat × Nat × Nat × String × String × String

/-- The source-rank component of `_rank_candidate` (lines 102-108):
`sab_rank = 999; if self.sab_preference is not None: if sab in
self.sab_preference: sab_rank = index; else (attribute is None): 0`. -/
def sab_rank (m : UMLSExactMatcher) (sab : String) : Nat :=
  match m.sab_preference with
  | some pref => if sab ∈ pref then pref.indexOf sab else 999
  | none => 0

/-- `_rank_candidate`: the 7-component ascending sort key. -/
def rank_candidate (m : UMLSExactMatcher) (c : Cand) : RankT :=
  (KEYTYPE_PRIORITY_get c.matched_key_type,
   (if c.ispref = "Y" then 0 else 1),
   sab_rank m c.sab,
   (if c.tty ∈ ["PT", "PN", "HT", "MH"] then 0 else 1),
   c.sab, c.tty, c.cui)

/-- Lexicographic `≤` on the 7-component key, as Python compares tuples,
built one component at a time. -/
abbrev rankLe6 : String × String → String × String → Bool := lexLeB strLeB strLeB

abbrev rankLe5 : String × String × String → String × String × String → Bool :=
  lexLeB strLeB rankLe6

abbrev rankLe4 : Nat × String × String × String → Nat × String × String × String → Bool :=
  lexLeB natLeB rankLe5

abbrev rankLe3 : Nat × Nat × String × String × String →
    Nat × Nat × String × String × String → Bool := lexLeB natLeB rankLe4

abbrev rankLe2 : Nat × Nat × Nat × String × String × String →
    Nat × Nat × Nat × String × String × String → Bool := lexLeB natLeB rankLe3

def rankLeB : RankT → RankT → Bool := lexLeB natLeB rankLe2

/-- The candidate comparator used to sort a mention's bucket. -/
def candLeB (m : UMLSExactMatcher) (a b : Cand) : Bool :=
  rankLeB (rank_candidate m a) (rank_candidate m b)

/-- `_apply_mrsty_filter` (lines 123-131). -/
def apply_mrsty_filter (m : UMLSExactMatcher) (cui target_type : String) : Bool :=
  if ¬ m.use_mrsty_filter then true
  else if target_type = "ANATOMY" then
    (m.cui_to_tuis cui).any (fun t => t ∈ m.anatomy_tuis)
  else if target_type = "OBSERVATION" then
    (m.cui_to_tuis cui).any (fun t => t ∈ m.observation_tuis)
  else true

/-- The per-candidate filter condition in `map_mentions_to_cui`
(lines 240-243): `ok = True; if types_here: ok = any(...)`. -/
def candidate_passes (m : UMLSExactMatcher) (types_here : List String)
    (cui : String) : Bool :=
  if types_here.isEmpty then true
  else types_here.any (fun t => apply_mrsty_filter m cui t)

/-- The record returned by `build_keys`. -/
structure KeysInfo where
  canonical : String
  is_measurement : Bool
  keys : List (String × String)
  types_seen : List String
deriving DecidableEq, Repr

/-- The key-deduplication loop of `build_keys` (lines 145-150):
keep a key only if it is non-empty and unseen. -/
def dedup_keys : List (String × String) → List String → List (String × String)
  | [], _ => []
  | (kt, k) :: rest, seen =>
    if ¬ k = "" ∧ ¬ k ∈ seen then (kt, k) :: dedup_keys rest (k :: seen)
    else dedup_keys rest seen

/-- `build_keys` (lines 133-157). -/
def build_keys (mention_norm : String) (types_seen : List String) : KeysInfo :=
  let m_can := canonicalize_surface mention_norm
  let meas := is_measurement_like m_can
  let keys :=
    [("full_norm", mention_norm)] ++
    (if ¬ m_can = "" ∧ ¬ m_can = mention_norm then [("full_can", m_can)] else []) ++
    (head_candidates m_can).map (fun hc => ("head", hc))
  ⟨m_can, meas, dedup_keys keys [], sortedDedupStr types_seen⟩

/-- The mention → `KeysInfo` map of `map_mentions_to_cui` (lines 166-172),
as a function (only ever consulted at batch mentions). -/
def mention_keys_fn (mention_types : String → List String) : String → KeysInfo :=
  fun mm => build_keys mm (mention_types mm)

/-- One mention's contribution to `key_to_mentions[k]`: the `(mention,
ktype)` pairs it registers for key string `k`. -/
def mentionEntries (mkeys : String → KeysInfo) (mm k : String) :
    List (String × String) :=
  (mkeys mm).keys.filterMap (fun p => if p.2 = k then some (mm, p.1) else none)

/-- `key_to_mentions` (lines 167-174), built by iterating the sorted unique
mentions and appending, read back as a function from key string to its
requesting `(mention, ktype)` pairs in insertion order. -/
def key_to_mentions (uniq : List String) (mkeys : String → KeysInfo)
    (k : String) : List (String × String) :=
  (uniq.map (fun mm => mentionEntries mkeys mm k)).flatten

/-- The mutable state of the reference scan: the `seen_pairs` set (modelled
by membership in a list of `(mention, cui, sab, tty)` tuples) and the
`alias_to_candidates` buckets (a `defaultdict(list)`, modelled as a total
function defaulting to `[]`). -/
structure ScanState where
  seen_pairs : List (String × String × String × String)
  buckets : String → List Cand

/-- The body of the inner loop `for mention_norm, ktype in
key_to_mentions[s_key]` (lines 200-219), for a fixed admissible row. -/
def innerStep (mkeys : String → KeysInfo) (cui sab tty ispref srow sKey : String)
    (st : ScanState) (pr : String × String) : ScanState :=
  if (mkeys pr.1).is_measurement then st
  else if (pr.1, cui, sab, tty) ∈ st.seen_pairs then st
  else
    { seen_pairs := (pr.1, cui, sab, tty) :: st.seen_pairs
      buckets := fun x =>
        if x = pr.1 then st.buckets pr.1 ++ [⟨cui, sab, tty, ispref, srow, sKey, pr.2⟩]
        else st.buckets x }

/-- Processing of one file line (lines 181-219): split on `|`, skip
malformed (< 15 fields) and non-English rows, canonicalize the surface
string, and feed every requesting `(mention, ktype)` pair to `innerStep`. -/
def scanLine (keyMap : String → List (String × String))
    (mkeys : String → KeysInfo) (st : ScanState) (line : String) : ScanState :=
  if (pySplitBar ⟨rstripNl line.data⟩).length < 15 then st
  else if ¬ (pySplitBar ⟨rstripNl line.data⟩).getD 1 "" = "ENG" then st
  else
    (keyMap (canonicalize_surface ((pySplitBar ⟨rstripNl line.data⟩).getD 14 ""))).foldl
      (innerStep mkeys
        ((pySplitBar ⟨rstripNl line.data⟩).getD 0 "")
        ((pySplitBar ⟨rstripNl line.data⟩).getD 11 "")
        ((pySplitBar ⟨rstripNl line.data⟩).getD 12 "")
        ((pySplitBar ⟨rstripNl line.data⟩).getD 6 "")
        ((pySplitBar ⟨rstripNl line.data⟩).getD 14 "")
        (canonicalize_surface ((pySplitBar ⟨rstripNl line.data⟩).getD 14 "")))
      st

/-- The whole reference scan (lines 180-219) as a single left fold over the
file's lines. -/
def scan_all (mentions : List String) (mention_types : String → List String)
    (file : List String) : ScanState :=
  file.foldl
    (scanLine (key_to_mentions (sortedDedupStr mentions) (mention_keys_fn mention_types))
      (mention_keys_fn mention_types))
    ⟨[], fun _ => []⟩

/-- The result record per mention. -/
structure GroundingResult where
  best_cui : Option String
  candidates : List Cand
  types_seen : List String
  excluded_reason : Option String
deriving DecidableEq, Repr

/-- The per-mention result assembly (lines 223-256): measurement
exclusion, semantic-type filter, rank sort, top-k truncation, best CUI. -/
def finish_mention (m : UMLSExactMatcher) (info : KeysInfo)
    (cands : List Cand) : GroundingResult :=
  if info.is_measurement then
    ⟨none, [], info.types_seen, some "measurement_like"⟩
  else
    ⟨((isortBy (candLeB m)
        (cands.filter (fun c => candidate_passes m info.types_seen c.cui))).take
          m.top_k).head?.map Cand.cui,
     ((isortBy (candLeB m)
        (cands.filter (fun c => candidate_passes m info.types_seen c.cui))).take
          m.top_k),
     info.types_seen, none⟩

/-- `map_mentions_to_cui` (lines 159-258), with the reference file passed
as its list of lines; returns the result dict as an association list in
mention order. -/
def map_mentions_to_cui (m : UMLSExactMatcher) (mentions : List String)
    (mention_types : String → List String) (file : List String) :
    List (String × GroundingResult) :=
  (sortedDedupStr mentions).map (fun mm =>
    (mm, finish_mention m (mention_keys_fn mention_types mm)
      ((scan_all mentions mention_types file).buckets mm)))

/-- Dict lookup on the returned association list. -/
def lookupResult (l : List (String × GroundingResult)) (mm : String) :
    Option GroundingResult :=
  match l with
  | [] => none
  | p :: rest => if p.1 = mm then some p.2 else lookupResult rest mm

/-! ## Definitions written from the claim texts (for comparison against the
code-derived definitions above) and concrete fixtures used in
counterexamples and witnesses -/

/-- C6's canonicalization as the claim states it: lowercase, replace each
hyphen and slash with a space, STRIP (remove, without inserting a
separator) every remaining character that is not alphanumeric or
whitespace, then collapse whitespace runs and trim. -/
def canonicalize_surface_claimed (s : String) : String :=
  ⟨pyStrip (collapseWS
      (((lowerL s.data).map (fun c => if c = '-' || c = '/' then ' ' else c)).filter
        (fun c => isLowerAZ c || isDigitC c || pyIsSpace c)))⟩

/-- C6 amended: as the claim, except that each remaining character that is
not alphanumeric or whitespace is REPLACED BY A SPACE rather than
removed. -/
def canonicalize_surface_amended (s : String) : String :=
  ⟨pyStrip (collapseWS
      (((lowerL s.data).map (fun c => if c = '-' || c = '/' then ' ' else c)).map
        (fun c => if isLowerAZ c || isDigitC c || pyIsSpace c then c else ' ')))⟩

/-- Two adjacent spaces occur somewhere in the list. -/
def hasDoubleSpace : List Char → Bool
  | c1 :: c2 :: cs => (c1 = ' ' && c2 = ' ') || hasDoubleSpace (c2 :: cs)
  | _ => false

/-- C5's notion of a type hint that "maps, via the supplied
concept-to-semantic-type-code mapping and the supplied per-category
allowed-code sets, to a type code intersecting the candidate's CUI's
type-code set". The two target categories are ANATOMY and OBSERVATION. -/
def claim_hint_maps_to_intersecting (m : UMLSExactMatcher) (t cui : String) : Prop :=
  (t = "ANATOMY" ∧ ∃ u ∈ m.cui_to_tuis cui, u ∈ m.anatomy_tuis) ∨
  (t = "OBSERVATION" ∧ ∃ u ∈ m.cui_to_tuis cui, u ∈ m.observation_tuis)

/-- C1's source rank as the claim states it: the index of the source in the
configured preference list, with sources absent from the list ranking after
every listed source (canonically, at `pref.length`). -/
def claim_sab_rank (m : UMLSExactMatcher) (sab : String) : Nat :=
  match m.sab_preference with
  | some pref => if sab ∈ pref then pref.indexOf sab else pref.length
  | none => 0

/-- The composite ranking key exactly as C1 describes it (identical to
`rank_candidate` except for the source-rank component). -/
def claim_rank_candidate (m : UMLSExactMatcher) (c : Cand) : RankT :=
  (KEYTYPE_PRIORITY_get c.matched_key_type,
   (if c.ispref = "Y" then 0 else 1),
   claim_sab_rank m c.sab,
   (if c.tty ∈ ["PT", "PN", "HT", "MH"] then 0 else 1),
   c.sab, c.tty, c.cui)

def claim_candLeB (m : UMLSExactMatcher) (a b : Cand) : Bool :=
  rankLeB (claim_rank_candidate m a) (claim_rank_candidate m b)

/-- The result assembly as C1 describes it: sort ascending by the claimed
composite key, truncate to `top_k`, best CUI from the first retained
candidate. -/
def claim_finish_mention (m : UMLSExactMatcher) (info : KeysInfo)
    (cands : List Cand) : GroundingResult :=
  if info.is_measurement then
    ⟨none, [], info.types_seen, some "measurement_like"⟩
  else
    ⟨((isortBy (claim_candLeB m)
        (cands.filter (fun c => candidate_passes m info.types_seen c.cui))).take
          m.top_k).head?.map Cand.cui,
     ((isortBy (claim_candLeB m)
        (cands.filter (fun c => candidate_passes m info.types_seen c.cui))).take
          m.top_k),
     info.types_seen, none⟩

/-- The pipeline with C1's claimed ranking key in place of the code's. -/
def claim_map_mentions_to_cui (m : UMLSExactMatcher) (mentions : List String)
    (mention_types : String → List String) (file : List String) :
    List (String × GroundingResult) :=
  (sortedDedupStr mentions).map (fun mm =>
    (mm, claim_finish_mention m (mention_keys_fn mention_types mm)
      ((scan_all mentions mention_types file).buckets mm)))

/-- Empty type-hint map. -/
def tyNone : String → List String := fun _ => []

/-- A matcher constructed with all-default arguments. -/
def m_default : UMLSExactMatcher := mkUMLSExactMatcher none 5 false none none none

/-- A matcher with the semantic-type filter enabled and empty
concept-to-type mapping and allowed-code sets. -/
def m_filter_on : UMLSExactMatcher := mkUMLSExactMatcher none 5 true none none none

/-- A matcher configured with a 1001-entry source-preference list: "B" is
listed at index 1000, beyond the code's 999 sentinel for absent sources. -/
def m_bigpref : UMLSExactMatcher :=
  mkUMLSExactMatcher (some (List.replicate 1000 "A" ++ ["B"])) 5 false none none none

/-- Reference rows used in counterexamples (15 `|`-separated fields with
CUI, language, preferred flag, source, term type, surface string at
positions 0, 1, 6, 11, 12, 14). -/
def row_x_Y : String := "C1|ENG|||||Y|||||SNOMEDCT_US|PT||x"

def row_x_N : String := "C1|ENG|||||N|||||SNOMEDCT_US|PT||x"

def row_sabB : String := "C1|ENG|||||N|||||B|PT||x"

def row_sabZ : String := "C2|ENG|||||N|||||ZZZ|PT||x"

/-- A reference row whose surface string is exactly "3.5 cm". -/
def row_meas : String := "C9|ENG|||||Y|||||SNOMEDCT_US|PT||3.5 cm"

/-- Concrete candidates and key info used in witnesses. -/
def cW1 : Cand := ⟨"C1", "S", "PT", "Y", "x", "x", "full_norm"⟩

def cW2 : Cand := ⟨"C2", "S", "PT", "Y", "x", "x", "full_norm"⟩

def infoW : KeysInfo := ⟨"x", false, [("full_norm", "x")], []⟩

/-- The part of a scan state observable by one mention `mm`: its bucket
and the `mm`-slice of the `seen_pairs` set. Two states related at `mm`
finish `mm` identically. -/
def RelAt (mm : String) (stB stS : ScanState) : Prop :=
  stB.buckets mm = stS.buckets mm ∧
  ∀ c s t : String,
    ((mm, c, s, t) ∈ stB.seen_pairs ↔ (mm, c, s, t) ∈ stS.seen_pairs)

/-! ## Properties of the comparators and of the insertion sort -/

theorem natLeB_total (a b : Nat) : natLeB a b = true ∨ natLeB b a = true := by
  simp only [natLeB, decide_eq_true_eq]
  omega

theorem natLeB_trans {a b c : Nat} (h1 : natLeB a b = true) (h2 : natLeB b c = true) :
    natLeB a c = true := by
  simp only [natLeB, decide_eq_true_eq] at *
  omega

theorem natLeB_antisymm {a b : Nat} (h1 : natLeB a b = true) (h2 : natLeB b a = true) :
    a = b := by
  simp only [natLeB, decide_eq_true_eq] at *
  omega

theorem strLeB_total (a b : String) : strLeB a b = true ∨ strLeB b a = true := by
  simp only [strLeB, decide_eq_true_eq]
  exact le_total a b

theorem strLeB_trans {a b c : String} (h1 : strLeB a b = true) (h2 : strLeB b c = true) :
    strLeB a c = true := by
  simp only [strLeB, decide_eq_true_eq] at *
  exact le_trans h1 h2

theorem strLeB_antisymm {a b : String} (h1 : strLeB a b = true) (h2 : strLeB b a = true) :
    a = b := by
  simp only [strLeB, decide_eq_true_eq] at *
  exact le_antisymm h1 h2

theorem lexLeB_total {la : α → α → Bool} {lb : β → β → Bool}
    (hta : ∀ a b, la a b = true ∨ la b a = true)
    (htb : ∀ a b, lb a b = true ∨ lb b a = true) :
    ∀ x y : α × β, lexLeB la lb x y = true ∨ lexLeB la lb y x = true := by
  intro x y
  unfold lexLeB
  cases hxy : la x.1 y.1 <;> cases hyx : la y.1 x.1
  · rcases hta x.1 y.1 with h | h
    · simp [h] at hxy
    · simp [h] at hyx
  · right; simp [hxy, hyx]
  · left; simp [hxy, hyx]
  · simp only [hxy, hyx, if_true]
    exact htb x.2 y.2

theorem lexLeB_trans {la : α → α → Bool} {lb : β → β → Bool}
    (htra : ∀ {a b c}, la a b = true → la b c = true → la a c = true)
    (htrb : ∀ {a b c}, lb a b = true → lb b c = true → lb a c = true)
    {x y z : α × β} (h1 : lexLeB la lb x y = true) (h2 : lexLeB la lb y z = true) :
    lexLeB la lb x z = true := by
  unfold lexLeB at *
  cases hxy : la x.1 y.1
  · simp [hxy] at h1
  · cases hyz : la y.1 z.1
    · simp [hyz] at h2
    · have hxz : la x.1 z.1 = true := htra hxy hyz
      cases hzx : la z.1 x.1
      · simp [hxz, hzx]
      · have hzy : la z.1 y.1 := htra hzx hxy
        have hyx : la y.1 x.1 := htra hyz hzx
        simp only [hxy, hyx, if_true] at h1
        simp only [hyz, hzy, if_true] at h2
        simp only [hxz, hzx, if_true]
        exact htrb h1 h2

theorem lexLeB_antisymm {la : α → α → Bool} {lb : β → β → Bool}
    (hansa : ∀ {a b}, la a b = true → la b a = true → a = b)
    (hansb : ∀ {a b}, lb a b = true → lb b a = true → a = b)
    {x y : α × β} (h1 : lexLeB la lb x y = true) (h2 : lexLeB la lb y x = true) :
    x = y := by
  unfold lexLeB at *
  cases hxy : la x.1 y.1
  · simp [hxy] at h1
  · cases hyx : la y.1 x.1
    · simp [hyx] at h2
    · simp only [hxy, hyx, if_true] at h1 h2
      exact Prod.ext (hansa hxy hyx) (hansb h1 h2)

theorem insertBy_perm (le : α → α → Bool) (a : α) (l : List α) :
    insertBy le a l ~ a :: l := by
  induction l with
  | nil => exact List.Perm.refl _
  | cons b bs ih =>
    unfold insertBy
    cases h : le a b
    · simp only [Bool.false_eq_true, if_false]
      exact (List.Perm.cons b ih).trans (List.Perm.swap a b bs)
    · simp

theorem isortBy_perm (le : α → α → Bool) (l : List α) : isortBy le l ~ l := by
  induction l with
  | nil => exact List.Perm.refl _
  | cons a as ih =>
    exact (insertBy_perm le a (isortBy le as)).trans (List.Perm.cons a ih)

theorem insertBy_pairwise {le : α → α → Bool}
    (htot : ∀ a b, le a b = true ∨ le b a = true)
    (htr : ∀ {a b c}, le a b = true → le b c = true → le a c = true)
    (a : α) {l : List α} (hl : l.Pairwise (fun x y => le x y = true)) :
    (insertBy le a l).Pairwise (fun x y => le x y = true) := by
  induction l with
  | nil => simp [insertBy]
  | cons b bs ih =>
    rcases List.pairwise_cons.mp hl with ⟨hb, hbs⟩
    unfold insertBy
    cases h : le a b
    · have hba : le b a = true := by
        rcases htot a b with h' | h'
        · simp [h'] at h
        · exact h'
      simp only [Bool.false_eq_true, if_false]
      refine List.pairwise_cons.mpr ⟨?_, ih hbs⟩
      intro x hx
      rcases List.mem_cons.mp ((insertBy_perm le a bs).mem_iff.mp hx) with hxa | hxb
      · subst hxa; exact hba
      · exact hb x hxb
    · simp only [if_true]
      refine List.pairwise_cons.mpr ⟨?_, hl⟩
      intro x hx
      rcases List.mem_cons.mp hx with hxb | hxbs
      · subst hxb; exact h
      · exact htr h (hb x hxbs)

theorem isortBy_pairwise {le : α → α → Bool}
    (htot : ∀ a b, le a b = true ∨ le b a = true)
    (htr : ∀ {a b c}, le a b = true → le b c = true → le a c = true)
    (l : List α) : (isortBy le l).Pairwise (fun x y => le x y = true) := by
  induction l with
  | nil => simp [isortBy]
  | cons a as ih => exact insertBy_pairwise htot htr a ih

/-- Two sorted lists that are permutations of each other coincide, provided
`le` is antisymmetric on the members of the lists. -/
theorem sorted_perm_eq {le : α → α → Bool}
    {l₁ l₂ : List α}
    (hans : ∀ a ∈ l₁, ∀ b ∈ l₁, le a b = true → le b a = true → a = b)
    (hs₁ : l₁.Pairwise (fun x y => le x y = true))
    (hs₂ : l₂.Pairwise (fun x y => le x y = true))
    (hp : l₁ ~ l₂) : l₁ = l₂ := by
  induction l₁ generalizing l₂ with
  | nil => exact (hp.nil_eq).symm ▸ rfl
  | cons a t₁ ih =>
    cases l₂ with
    | nil => exact absurd hp.symm.nil_eq (by simp)
    | cons b t₂ =>
      rcases List.pairwise_cons.mp hs₁ with ⟨ha, ht₁⟩
      rcases List.pairwise_cons.mp hs₂ with ⟨hb, ht₂⟩
      have hab : a = b := by
        have hbmem : b ∈ a :: t₁ := hp.symm.subset (by simp)
        have hamem : a ∈ b :: t₂ := hp.subset (by simp)
        rcases List.mem_cons.mp hbmem with hba | hbt₁
        · exact hba.symm
        · rcases List.mem_cons.mp hamem with hab' | hat₂
          · exact hab'
          · have h1 : le a b = true := ha b hbt₁
            have h2 : le b a = true := hb a hat₂
            exact hans a (by simp) b (List.mem_cons.mpr (Or.inr hbt₁)) h1 h2
      subst hab
      have hpt : t₁ ~ t₂ := hp.cons_inv
      have : t₁ = t₂ := by
        refine ih (fun x hx y hy => hans x (by simp [hx]) y (by simp [hy])) ht₁ ht₂ hpt
      rw [this]

/-! ## Lemmas about stripping and whitespace collapsing -/

theorem collapseWS_cons (c : Char) (cs : List Char) :
    collapseWS (c :: cs) =
      if pyIsSpace c then
        if (collapseWS cs).head? = some ' ' then collapseWS cs
        else ' ' :: collapseWS cs
      else c :: collapseWS cs := rfl

theorem rstripL_cons (c : Char) (l : List Char) :
    rstripL (c :: l) = match rstripL l with
      | [] => if pyIsSpace c then [] else [c]
      | r => c :: r := by
  simp [rstripL]

theorem pyStrip_cons_space {c : Char} (hc : pyIsSpace c = true) (l : List Char) :
    pyStrip (c :: l) = pyStrip l := by
  unfold pyStrip lstripL
  rw [rstripL_cons]
  cases h : rstripL l with
  | nil => simp [hc]
  | cons d r => simp [hc]

theorem collapseWS_all_space {w : List Char} (hw : ∀ c ∈ w, pyIsSpace c = true) :
    collapseWS w = if w.isEmpty then [] else [' '] := by
  induction w with
  | nil => simp [collapseWS]
  | cons c cs ih =>
    have hc : pyIsSpace c = true := hw c (by simp)
    have ihcs := ih (fun d hd => hw d (by simp [hd]))
    cases cs with
    | nil => simp [collapseWS_cons, collapseWS, hc]
    | cons d t =>
      simp only [List.isEmpty_cons] at ihcs
      rw [collapseWS_cons, if_pos hc, ihcs]
      simp

theorem collapseWS_head_space {c : Char} (hc : pyIsSpace c = true) (cs : List Char) :
    (collapseWS (c :: cs)).head? = some ' ' := by
  rw [collapseWS_cons, if_pos hc]
  by_cases h : (collapseWS cs).head? = some ' '
  · simp [h]
  · simp [h]

theorem collapseWS_cons_nonspace {c : Char} (hc : pyIsSpace c = false) (cs : List Char) :
    collapseWS (c :: cs) = c :: collapseWS cs := by
  rw [collapseWS_cons]
  simp [hc]

/-- Prepending whitespace does not change the stripped collapsed form. -/
theorem pyStrip_collapseWS_space_prepend {w : List Char}
    (hw : ∀ c ∈ w, pyIsSpace c = true) (l : List Char) :
    pyStrip (collapseWS (w ++ l)) = pyStrip (collapseWS l) := by
  induction w with
  | nil => rfl
  | cons c w' ih =>
    have hc : pyIsSpace c = true := hw c (by simp)
    have ih' := ih (fun d hd => hw d (by simp [hd]))
    have step : pyStrip (collapseWS (c :: (w' ++ l))) = pyStrip (collapseWS (w' ++ l)) := by
      rw [collapseWS_cons, if_pos hc]
      by_cases h : (collapseWS (w' ++ l)).head? = some ' '
      · simp [h]
      · rw [if_neg h]
        exact pyStrip_cons_space (by decide) _
    calc pyStrip (collapseWS ((c :: w') ++ l))
        = pyStrip (collapseWS (w' ++ l)) := step
      _ = pyStrip (collapseWS l) := ih'

/-- Appending whitespace does not change the right-stripped collapsed
form. -/
theorem rstripL_collapseWS_space_append {w : List Char}
    (hw : ∀ c ∈ w, pyIsSpace c = true) (l : List Char) :
    rstripL (collapseWS (l ++ w)) = rstripL (collapseWS l) := by
  induction l with
  | nil =>
    rw [List.nil_append]
    rw [collapseWS_all_space hw]
    cases w with
    | nil => rfl
    | cons c cs => simp [rstripL]; decide
  | cons c l' ih =>
    cases hc : pyIsSpace c with
    | false =>
      rw [List.cons_append, collapseWS_cons_nonspace hc, collapseWS_cons_nonspace hc]
      rw [rstripL_cons, rstripL_cons, ih]
    | true =>
      cases l' with
      | nil =>
        have hall : ∀ d ∈ (c :: w), pyIsSpace d = true := by
          intro d hd
          rcases List.mem_cons.mp hd with h | h
          · subst h; exact hc
          · exact hw d h
        rw [List.cons_append, List.nil_append]
        rw [collapseWS_all_space hall]
        have honel : ∀ d ∈ [c], pyIsSpace d = true := by
          intro d hd
          rcases List.mem_cons.mp hd with h | h
          · subst h; exact hc
          · cases h
        have hone : collapseWS [c] = [' '] := by
          rw [collapseWS_all_space honel]
          rfl
        rw [hone]
        simp [List.isEmpty_cons]
      | cons d t =>
        have hhead : ((collapseWS ((d :: t) ++ w)).head? = some ' ') ↔
            ((collapseWS (d :: t)).head? = some ' ') := by
          cases hd : pyIsSpace d with
          | true =>
            rw [List.cons_append]
            rw [collapseWS_head_space hd, collapseWS_head_space hd]
          | false =>
            rw [List.cons_append]
            rw [collapseWS_cons_nonspace hd, collapseWS_cons_nonspace hd]
            simp
        rw [List.cons_append]
        rw [collapseWS_cons, collapseWS_cons, if_pos hc, if_pos hc]
        by_cases h1 : (collapseWS ((d :: t) ++ w)).head? = some ' '
        · have h2 : (collapseWS (d :: t)).head? = some ' ' := hhead.mp h1
          rw [if_pos h1, if_pos h2]
          exact ih
        · have h2 : ¬ (collapseWS (d :: t)).head? = some ' ' := fun h => h1 (hhead.mpr h)
          rw [if_neg h1, if_neg h2]
          rw [rstripL_cons, rstripL_cons, ih]

theorem pyStrip_collapseWS_space_append {w : List Char}
    (hw : ∀ c ∈ w, pyIsSpace c = true) (l : List Char) :
    pyStrip (collapseWS (l ++ w)) = pyStrip (collapseWS l) := by
  unfold pyStrip
  rw [rstripL_collapseWS_space_append hw]

theorem rstripL_eq_nil_all_space : ∀ {l : List Char}, rstripL l = [] →
    ∀ c ∈ l, pyIsSpace c = true := by
  intro l
  induction l with
  | nil => intro _ c hc; cases hc
  | cons d t ih =>
    intro h c hc
    rw [rstripL_cons] at h
    cases ht : rstripL t with
    | nil =>
      rw [ht] at h
      rcases List.mem_cons.mp hc with h' | h'
      · subst h'
        by_cases hd : pyIsSpace c = true
        · exact hd
        · simp [hd] at h
      · exact ih ht c h'
    | cons e r => rw [ht] at h; cases h

/-- Every list splits as its right-stripped part followed by trailing
whitespace. -/
theorem rstripL_decomposition : ∀ l : List Char,
    ∃ w, (∀ c ∈ w, pyIsSpace c = true) ∧ l = rstripL l ++ w := by
  intro l
  induction l with
  | nil => exact ⟨[], by simp, rfl⟩
  | cons c t ih =>
    rcases ih with ⟨w, hw, hdec⟩
    rw [rstripL_cons]
    cases ht : rstripL t with
    | nil =>
      have hall : ∀ d ∈ t, pyIsSpace d = true := rstripL_eq_nil_all_space ht
      by_cases hc : pyIsSpace c = true
      · refine ⟨c :: t, ?_, by simp [hc]⟩
        intro d hd
        rcases List.mem_cons.mp hd with h | h
        · subst h; exact hc
        · exact hall d h
      · refine ⟨t, hall, ?_⟩
        simp [hc]
    | cons e r =>
      rw [ht] at hdec
      exact ⟨w, hw, by rw [List.cons_append, ← hdec]⟩

/-! ## Claims C6 and C7: the two normalization functions -/

/-- C6 (counterexample): the claim says canonicalize REMOVES (without
inserting a separator) each remaining non-alphanumeric, non-whitespace
character, which would send `"a.b"` to `"ab"`; the code replaces such
characters by a space, producing `"a b"`. -/
theorem C6_counterexample :
    canonicalize_surface "a.b" = "a b" ∧
    canonicalize_surface_claimed "a.b" = "ab" ∧
    ¬ canonicalize_surface "a.b" = canonicalize_surface_claimed "a.b" := by
  refine ⟨by decide, by decide, by decide⟩

theorem map_all_space_fix {g : Char → Char}
    (hg : ∀ c, pyIsSpace c = true → g c = c) :
    ∀ {w : List Char}, (∀ c ∈ w, pyIsSpace c = true) → w.map g = w := by
  intro w
  induction w with
  | nil => intro _; rfl
  | cons c cs ih =>
    intro hw
    have hc := hg c (hw c (by simp))
    have := ih (fun d hd => hw d (by simp [hd]))
    simp [hc, this]

/-- C6 (amended): `canonicalize(s)` equals lowercasing, replacing hyphen
and slash by a space, REPLACING each remaining character that is not
alphanumeric or whitespace BY A SPACE, then collapsing whitespace runs and
trimming — i.e. the claim with replacement in place of removal.  The
code's additional initial strip is redundant given the final trim. -/
theorem C6_theorem (s : String) :
    canonicalize_surface s = canonicalize_surface_amended s := by
  unfold canonicalize_surface canonicalize_surface_amended
  rw [List.map_map, List.map_map]
  set f2 : Char → Char := fun c => if c = '-' || c = '/' then ' ' else c with hf2
  set f3 : Char → Char := fun c => if isLowerAZ c || isDigitC c || pyIsSpace c then c else ' ' with hf3
  set g : Char → Char := f3 ∘ f2 with hg
  have hfix : ∀ c, pyIsSpace c = true → g c = c := by
    intro c hc
    simp only [pyIsSpace, Bool.or_eq_true, decide_eq_true_eq] at hc
    rcases hc with ((((h | h) | h) | h) | h) | h <;> subst h <;> decide
  set L : List Char := lowerL s.data with hL
  rcases rstripL_decomposition L with ⟨w', hw', hdecR⟩
  set R : List Char := rstripL L with hR
  have htd : R.takeWhile pyIsSpace ++ R.dropWhile pyIsSpace = R :=
    List.takeWhile_append_dropWhile pyIsSpace R
  set t : List Char := R.takeWhile pyIsSpace with ht
  have htsp : ∀ c ∈ t, pyIsSpace c = true := by
    intro c hc
    exact List.mem_takeWhile_imp hc
  have hM : pyStrip L = R.dropWhile pyIsSpace := rfl
  have hLdec : L = t ++ (R.dropWhile pyIsSpace ++ w') := by
    rw [← List.append_assoc, htd, ← hdecR]
  congr 1
  calc pyStrip (collapseWS ((pyStrip L).map g))
      = pyStrip (collapseWS ((R.dropWhile pyIsSpace).map g)) := by rw [hM]
    _ = pyStrip (collapseWS ((R.dropWhile pyIsSpace).map g ++ w')) := by
        rw [pyStrip_collapseWS_space_append hw']
    _ = pyStrip (collapseWS (t ++ ((R.dropWhile pyIsSpace).map g ++ w'))) := by
        rw [pyStrip_collapseWS_space_prepend htsp]
    _ = pyStrip (collapseWS (L.map g)) := by
        rw [hLdec]
        rw [List.map_append, List.map_append]
        rw [map_all_space_fix hfix htsp, map_all_space_fix hfix hw']

/-- Characters of a collapsed list that are whitespace are plain spaces. -/
theorem mem_collapseWS_space : ∀ {l : List Char} {c : Char}, c ∈ collapseWS l →
    pyIsSpace c = true → c = ' ' := by
  intro l
  induction l with
  | nil => intro c hc; cases hc
  | cons a as ih =>
    intro c hc hsp
    rw [collapseWS_cons] at hc
    cases ha : pyIsSpace a with
    | true =>
      rw [if_pos ha] at hc
      by_cases hh : (collapseWS as).head? = some ' '
      · rw [if_pos hh] at hc
        exact ih hc hsp
      · rw [if_neg hh] at hc
        rcases List.mem_cons.mp hc with h | h
        · exact h
        · exact ih h hsp
    | false =>
      rw [if_neg (by simp [ha])] at hc
      rcases List.mem_cons.mp hc with h | h
      · subst h
        rw [ha] at hsp
        cases hsp
      · exact ih h hsp

/-- C7 (counterexample): whitespace collapsing happens BEFORE punctuation
removal, so `normalize("a . b")` is `"a  b"`, which contains two adjacent
spaces, and `normalize("a .")` is `"a "`, which ends in whitespace — the
claimed whitespace-collapsed, stripped shape fails. -/
theorem C7_counterexample :
    normalize_text "a . b" = "a  b" ∧
    hasDoubleSpace (normalize_text "a . b").data = true ∧
    normalize_text "a ." = "a " := by
  refine ⟨by decide, by decide, by decide⟩

/-- C7 (amended): every character of `normalize(s)` is a lowercase ASCII
letter, a digit, a hyphen, or a plain space (whitespace collapsing and
stripping run before punctuation removal, so runs of spaces and edge
spaces may survive, but no other character kind does). -/
theorem C7_theorem (s : String) (c : Char) (hc : c ∈ (normalize_text s).data) :
    isLowerAZ c = true ∨ isDigitC c = true ∨ c = '-' ∨ c = ' ' := by
  unfold normalize_text at hc
  simp only [String.data] at hc
  rcases List.mem_filter.mp hc with ⟨hmem, hpred⟩
  simp only [Bool.or_eq_true] at hpred
  rcases hpred with ((h | h) | h) | h
  · exact Or.inl h
  · exact Or.inr (Or.inl h)
  · exact Or.inr (Or.inr (Or.inr (mem_collapseWS_space hmem h)))
  · exact Or.inr (Or.inr (Or.inl (by simpa using h)))

/-- C7 (witness for the amended theorem): evaluated at `s = "a-b"`,
`c = '-'`. -/
theorem C7_witness :
    '-' ∈ (normalize_text "a-b").data ∧
    (isLowerAZ '-' = true ∨ isDigitC '-' = true ∨ '-' = '-' ∨ '-' = ' ') := by
  have h : '-' ∈ (normalize_text "a-b").data := by decide
  exact ⟨h, C7_theorem "a-b" '-' h⟩

/-! ## Claim C8: the source rank -/

/-- C8 (counterexample): a matcher configured with no source-preference
list does NOT rank all sources 0 — the constructor substitutes the default
list, so RXNORM ranks 1 and an unlisted source ranks 999. -/
theorem C8_counterexample :
    sab_rank m_default "RXNORM" = 1 ∧ sab_rank m_default "XYZ" = 999 ∧
    ¬ sab_rank m_default "RXNORM" = 0 ∧ ¬ sab_rank m_default "XYZ" = 0 := by
  refine ⟨by decide, by decide, by decide, by decide⟩

/-- C8 (amended): the candidate's source rank is the index of its source
in the matcher's stored preference list if listed and 999 otherwise; a
matcher constructed with no source-preference list (or an empty one)
stores the default list `[SNOMEDCT_US, RXNORM, MSH]`, and the stored list
is never `None`, so the all-rank-0 branch of `_rank_candidate` is
unreachable through the constructor. -/
theorem C8_theorem (sp : Option (List String)) (tk : Nat) (uf : Bool)
    (ct : Option (String → List String)) (an ob : Option (List String))
    (sab : String) :
    sab_rank (mkUMLSExactMatcher sp tk uf ct an ob) sab =
      (let pref : List String :=
        match sp with
        | none => ["SNOMEDCT_US", "RXNORM", "MSH"]
        | some [] => ["SNOMEDCT_US", "RXNORM", "MSH"]
        | some l => l
       if sab ∈ pref then pref.indexOf sab else 999) ∧
    ¬ (mkUMLSExactMatcher sp tk uf ct an ob).sab_preference = none := by
  rcases sp with _ | l
  · exact ⟨rfl, by simp [mkUMLSExactMatcher]⟩
  · cases l with
    | nil => exact ⟨rfl, by simp [mkUMLSExactMatcher]⟩
    | cons a as => exact ⟨rfl, by simp [mkUMLSExactMatcher]⟩

/-! ## Claims C5 and C10: the semantic-type filter -/

theorem apply_mrsty_filter_eq_true_iff (m : UMLSExactMatcher) (cui t : String)
    (hf : m.use_mrsty_filter = true) :
    apply_mrsty_filter m cui t = true ↔
      ((¬ t = "ANATOMY" ∧ ¬ t = "OBSERVATION") ∨
        claim_hint_maps_to_intersecting m t cui) := by
  unfold apply_mrsty_filter claim_hint_maps_to_intersecting
  by_cases tA : t = "ANATOMY"
  · subst tA
    simp [hf, List.any_eq_true]
  · by_cases tO : t = "OBSERVATION"
    · subst tO
      simp [hf, List.any_eq_true]
    · simp [hf, tA, tO]

/-- C5 (counterexample): with the filter enabled and an empty
concept-to-type-code mapping, a candidate for a mention whose only type
hint is FINDING survives the filter although no hint maps to a code
intersecting the CUI's (empty) type-code set — the claimed "only if" is
false. -/
theorem C5_counterexample :
    candidate_passes m_filter_on ["FINDING"] "C1" = true ∧
    ¬ ∃ t ∈ (["FINDING"] : List String),
        claim_hint_maps_to_intersecting m_filter_on t "C1" := by
  constructor
  · decide
  · rintro ⟨t, ht, hmap⟩
    have : t = "FINDING" := by simpa using ht
    subst this
    rcases hmap with ⟨h, _⟩ | ⟨h, _⟩ <;> exact absurd h (by decide)

/-- C5 (amended): with the filter enabled, a candidate survives iff the
mention has no type hints, or some hint is outside the two target
categories ANATOMY/OBSERVATION (such hints pass unconditionally), or some
hint maps via the supplied mapping and allowed-code sets to a type code
intersecting the candidate's CUI's type-code set. -/
theorem C5_theorem (m : UMLSExactMatcher) (hints : List String) (cui : String)
    (hf : m.use_mrsty_filter = true) :
    candidate_passes m hints cui = true ↔
      (hints = [] ∨ ∃ t ∈ hints,
        (¬ t = "ANATOMY" ∧ ¬ t = "OBSERVATION") ∨
          claim_hint_maps_to_intersecting m t cui) := by
  cases hints with
  | nil => simp [candidate_passes]
  | cons h0 hrest =>
    unfold candidate_passes
    rw [show (h0 :: hrest).isEmpty = false from rfl]
    simp only [Bool.false_eq_true, if_false, List.any_eq_true]
    constructor
    · rintro ⟨t, ht, hap⟩
      exact Or.inr ⟨t, ht, (apply_mrsty_filter_eq_true_iff m cui t hf).mp hap⟩
    · rintro (h | ⟨t, ht, hP⟩)
      · cases h
      · exact ⟨t, ht, (apply_mrsty_filter_eq_true_iff m cui t hf).mpr hP⟩

/-- C5 (witness): the amended equivalence applied at the concrete
filter-enabled matcher, hint list `["FINDING"]` and CUI `"C1"`. -/
theorem C5_witness :
    m_filter_on.use_mrsty_filter = true ∧
    (candidate_passes m_filter_on ["FINDING"] "C1" = true ↔
      ((["FINDING"] : List String) = [] ∨ ∃ t ∈ (["FINDING"] : List String),
        (¬ t = "ANATOMY" ∧ ¬ t = "OBSERVATION") ∨
          claim_hint_maps_to_intersecting m_filter_on t "C1")) :=
  ⟨rfl, C5_theorem m_filter_on ["FINDING"] "C1" rfl⟩

/-- C10: whenever the filter is enabled and some observed type hint is
neither ANATOMY nor OBSERVATION, every candidate passes the filter,
whatever the concept-to-type mapping and the allowed-code sets are. -/
theorem C10_theorem (m : UMLSExactMatcher) (hints : List String)
    (cands : List Cand) (hf : m.use_mrsty_filter = true) (t : String)
    (ht : t ∈ hints) (hA : ¬ t = "ANATOMY") (hO : ¬ t = "OBSERVATION") :
    cands.filter (fun c => candidate_passes m hints c.cui) = cands := by
  apply List.filter_eq_self.mpr
  intro c _
  unfold candidate_passes
  have hne : hints.isEmpty = false := by
    cases hints
    · cases ht
    · rfl
  rw [hne]
  simp only [Bool.false_eq_true, if_false, List.any_eq_true]
  refine ⟨t, ht, ?_⟩
  unfold apply_mrsty_filter
  simp [hf, hA, hO]

/-- C10 (witness): evaluated with the filter-enabled matcher, hint
FINDING, and one concrete candidate. -/
theorem C10_witness :
    m_filter_on.use_mrsty_filter = true ∧
    "FINDING" ∈ (["FINDING"] : List String) ∧
    ¬ "FINDING" = "ANATOMY" ∧ ¬ "FINDING" = "OBSERVATION" ∧
    ([⟨"C1", "S", "PT", "Y", "x", "x", "full_norm"⟩] : List Cand).filter
        (fun c => candidate_passes m_filter_on ["FINDING"] c.cui) =
      [⟨"C1", "S", "PT", "Y", "x", "x", "full_norm"⟩] :=
  ⟨rfl, by decide, by decide, by decide,
    C10_theorem m_filter_on ["FINDING"] _ rfl "FINDING" (by decide) (by decide)
      (by decide)⟩

/-! ## Properties of the full ranking comparator, one layer at a time -/

theorem rankLe6_total : ∀ x y, rankLe6 x y = true ∨ rankLe6 y x = true :=
  @lexLeB_total String (String) strLeB strLeB strLeB_total strLeB_total

theorem rankLe6_trans {x y z} (h1 : rankLe6 x y = true) (h2 : rankLe6 y z = true) :
    rankLe6 x z = true :=
  @lexLeB_trans String (String) strLeB strLeB
    (fun {_a _b _c} h1 h2 => strLeB_trans h1 h2) (fun {_a _b _c} h1 h2 => strLeB_trans h1 h2) x y z h1 h2

theorem rankLe6_antisymm {x y} (h1 : rankLe6 x y = true) (h2 : rankLe6 y x = true) :
    x = y :=
  @lexLeB_antisymm String (String) strLeB strLeB
    (fun {_a _b} h1 h2 => strLeB_antisymm h1 h2) (fun {_a _b} h1 h2 => strLeB_antisymm h1 h2) x y h1 h2

theorem rankLe5_total : ∀ x y, rankLe5 x y = true ∨ rankLe5 y x = true :=
  @lexLeB_total String (String × String) strLeB rankLe6 strLeB_total rankLe6_total

theorem rankLe5_trans {x y z} (h1 : rankLe5 x y = true) (h2 : rankLe5 y z = true) :
    rankLe5 x z = true :=
  @lexLeB_trans String (String × String) strLeB rankLe6
    (fun {_a _b _c} h1 h2 => strLeB_trans h1 h2) (fun {_a _b _c} h1 h2 => rankLe6_trans h1 h2) x y z h1 h2

theorem rankLe5_antisymm {x y} (h1 : rankLe5 x y = true) (h2 : rankLe5 y x = true) :
    x = y :=
  @lexLeB_antisymm String (String × String) strLeB rankLe6
    (fun {_a _b} h1 h2 => strLeB_antisymm h1 h2) (fun {_a _b} h1 h2 => rankLe6_antisymm h1 h2) x y h1 h2

theorem rankLe4_total : ∀ x y, rankLe4 x y = true ∨ rankLe4 y x = true :=
  @lexLeB_total Nat (String × String × String) natLeB rankLe5 natLeB_total rankLe5_total

theorem rankLe4_trans {x y z} (h1 : rankLe4 x y = true) (h2 : rankLe4 y z = true) :
    rankLe4 x z = true :=
  @lexLeB_trans Nat (String × String × String) natLeB rankLe5
    (fun {_a _b _c} h1 h2 => natLeB_trans h1 h2) (fun {_a _b _c} h1 h2 => rankLe5_trans h1 h2) x y z h1 h2

theorem rankLe4_antisymm {x y} (h1 : rankLe4 x y = true) (h2 : rankLe4 y x = true) :
    x = y :=
  @lexLeB_antisymm Nat (String × String × String) natLeB rankLe5
    (fun {_a _b} h1 h2 => natLeB_antisymm h1 h2) (fun {_a _b} h1 h2 => rankLe5_antisymm h1 h2) x y h1 h2

theorem rankLe3_total : ∀ x y, rankLe3 x y = true ∨ rankLe3 y x = true :=
  @lexLeB_total Nat (Nat × String × String × String) natLeB rankLe4 natLeB_total rankLe4_total

theorem rankLe3_trans {x y z} (h1 : rankLe3 x y = true) (h2 : rankLe3 y z = true) :
    rankLe3 x z = true :=
  @lexLeB_trans Nat (Nat × String × String × String) natLeB rankLe4
    (fun {_a _b _c} h1 h2 => natLeB_trans h1 h2) (fun {_a _b _c} h1 h2 => rankLe4_trans h1 h2) x y z h1 h2

theorem rankLe3_antisymm {x y} (h1 : rankLe3 x y = true) (h2 : rankLe3 y x = true) :
    x = y :=
  @lexLeB_antisymm Nat (Nat × String × String × String) natLeB rankLe4
    (fun {_a _b} h1 h2 => natLeB_antisymm h1 h2) (fun {_a _b} h1 h2 => rankLe4_antisymm h1 h2) x y h1 h2

theorem rankLe2_total : ∀ x y, rankLe2 x y = true ∨ rankLe2 y x = true :=
  @lexLeB_total Nat (Nat × Nat × String × String × String) natLeB rankLe3 natLeB_total rankLe3_total

theorem rankLe2_trans {x y z} (h1 : rankLe2 x y = true) (h2 : rankLe2 y z = true) :
    rankLe2 x z = true :=
  @lexLeB_trans Nat (Nat × Nat × String × String × String) natLeB rankLe3
    (fun {_a _b _c} h1 h2 => natLeB_trans h1 h2) (fun {_a _b _c} h1 h2 => rankLe3_trans h1 h2) x y z h1 h2

theorem rankLe2_antisymm {x y} (h1 : rankLe2 x y = true) (h2 : rankLe2 y x = true) :
    x = y :=
  @lexLeB_antisymm Nat (Nat × Nat × String × String × String) natLeB rankLe3
    (fun {_a _b} h1 h2 => natLeB_antisymm h1 h2) (fun {_a _b} h1 h2 => rankLe3_antisymm h1 h2) x y h1 h2

theorem rankLeB_total : ∀ x y, rankLeB x y = true ∨ rankLeB y x = true :=
  @lexLeB_total Nat (Nat × Nat × Nat × String × String × String) natLeB rankLe2 natLeB_total rankLe2_total

theorem rankLeB_trans {x y z} (h1 : rankLeB x y = true) (h2 : rankLeB y z = true) :
    rankLeB x z = true :=
  @lexLeB_trans Nat (Nat × Nat × Nat × String × String × String) natLeB rankLe2
    (fun {_a _b _c} h1 h2 => natLeB_trans h1 h2) (fun {_a _b _c} h1 h2 => rankLe2_trans h1 h2) x y z h1 h2

theorem rankLeB_antisymm {x y} (h1 : rankLeB x y = true) (h2 : rankLeB y x = true) :
    x = y :=
  @lexLeB_antisymm Nat (Nat × Nat × Nat × String × String × String) natLeB rankLe2
    (fun {_a _b} h1 h2 => natLeB_antisymm h1 h2) (fun {_a _b} h1 h2 => rankLe2_antisymm h1 h2) x y h1 h2

theorem candLeB_total (m : UMLSExactMatcher) :
    ∀ a b : Cand, candLeB m a b = true ∨ candLeB m b a = true :=
  fun a b => rankLeB_total (rank_candidate m a) (rank_candidate m b)

theorem candLeB_trans (m : UMLSExactMatcher) :
    ∀ {a b c : Cand}, candLeB m a b = true → candLeB m b c = true →
      candLeB m a c = true :=
  fun h1 h2 => rankLeB_trans h1 h2

/-! ## Claim C4: mention-list order and duplication independence -/

/-- `sorted(set(·))` depends only on membership. -/
theorem sortedDedupStr_ext {l1 l2 : List String}
    (h : ∀ s, s ∈ l1 ↔ s ∈ l2) : sortedDedupStr l1 = sortedDedupStr l2 := by
  have hmem : ∀ a, a ∈ l1.dedup ↔ a ∈ l2.dedup := by
    intro a
    rw [List.mem_dedup, List.mem_dedup]
    exact h a
  have hperm : l1.dedup ~ l2.dedup :=
    (List.perm_ext_iff_of_nodup (List.nodup_dedup l1) (List.nodup_dedup l2)).mpr hmem
  have hp : sortedDedupStr l1 ~ sortedDedupStr l2 :=
    ((isortBy_perm strLeB l1.dedup).trans hperm).trans (isortBy_perm strLeB l2.dedup).symm
  exact sorted_perm_eq (fun a _ b _ h1 h2 => strLeB_antisymm h1 h2)
    (isortBy_pairwise strLeB_total (fun h1 h2 => strLeB_trans h1 h2) l1.dedup)
    (isortBy_pairwise strLeB_total (fun h1 h2 => strLeB_trans h1 h2) l2.dedup) hp

/-- C4: two mention lists with the same set of mention strings (any order,
any duplication) and the same type-hint map produce identical results over
the same reference file. -/
theorem C4_theorem (m : UMLSExactMatcher) (l1 l2 : List String)
    (types : String → List String) (file : List String)
    (h : ∀ s, s ∈ l1 ↔ s ∈ l2) :
    map_mentions_to_cui m l1 types file = map_mentions_to_cui m l2 types file := by
  have hsd : sortedDedupStr l1 = sortedDedupStr l2 := sortedDedupStr_ext h
  unfold map_mentions_to_cui scan_all
  rw [hsd]

/-- C4 (witness): `["b", "a", "a"]` versus `["a", "b"]` over one row. -/
theorem C4_witness :
    (∀ s : String, s ∈ (["b", "a", "a"] : List String) ↔
      s ∈ (["a", "b"] : List String)) ∧
    map_mentions_to_cui m_default ["b", "a", "a"] tyNone [row_x_Y] =
      map_mentions_to_cui m_default ["a", "b"] tyNone [row_x_Y] := by
  have hmem : ∀ s : String, s ∈ (["b", "a", "a"] : List String) ↔
      s ∈ (["a", "b"] : List String) := by
    intro s
    constructor <;> intro hs <;> simp at hs ⊢ <;> tauto
  exact ⟨hmem, C4_theorem m_default _ _ tyNone [row_x_Y] hmem⟩

/-! ## Claim C3: independence from reference-file scan order -/

/-- C3 (counterexample): two reference lines with the same (CUI, source,
term type) but different preferred flags; swapping them changes which
row's evidence is retained by the (mention, CUI, source, term-type)
deduplication, so the output differs between the two line orders. -/
theorem C3_counterexample :
    (([row_x_N, row_x_Y] : List String) ~ [row_x_Y, row_x_N]) ∧
    ¬ map_mentions_to_cui m_default ["x"] tyNone [row_x_Y, row_x_N] =
      map_mentions_to_cui m_default ["x"] tyNone [row_x_N, row_x_Y] := by
  constructor
  · exact List.Perm.swap row_x_Y row_x_N []
  · decide

/-- C3 (amended): the ranking phase is a pure function of the collected
candidate set: permuting a mention's collected bucket leaves the finished
result unchanged whenever the ranking key is injective on the bucket
(which holds for scan-produced buckets, deduplicated by (CUI, source, term
type) — components 5-7 of the key). File-line permutations can change the
output only by changing the retained representative of duplicate
(mention, CUI, source, term-type) evidence, as in the counterexample. -/
theorem C3_theorem (m : UMLSExactMatcher) (info : KeysInfo) (l1 l2 : List Cand)
    (hp : l1 ~ l2)
    (hinj : ∀ a ∈ l1, ∀ b ∈ l1, rank_candidate m a = rank_candidate m b → a = b) :
    finish_mention m info l1 = finish_mention m info l2 := by
  unfold finish_mention
  by_cases hm : info.is_measurement = true
  · rw [if_pos hm, if_pos hm]
  · rw [if_neg hm, if_neg hm]
    have hpf : l1.filter (fun c => candidate_passes m info.types_seen c.cui) ~
        l2.filter (fun c => candidate_passes m info.types_seen c.cui) :=
      hp.filter _
    have hsort :
        isortBy (candLeB m) (l1.filter (fun c => candidate_passes m info.types_seen c.cui)) =
        isortBy (candLeB m) (l2.filter (fun c => candidate_passes m info.types_seen c.cui)) := by
      apply sorted_perm_eq
      · intro a ha b hb h1 h2
        have ha' : a ∈ l1 := List.mem_of_mem_filter ((isortBy_perm _ _).mem_iff.mp ha)
        have hb' : b ∈ l1 := List.mem_of_mem_filter ((isortBy_perm _ _).mem_iff.mp hb)
        exact hinj a ha' b hb' (rankLeB_antisymm h1 h2)
      · exact isortBy_pairwise (candLeB_total m) (fun h1 h2 => candLeB_trans m h1 h2) _
      · exact isortBy_pairwise (candLeB_total m) (fun h1 h2 => candLeB_trans m h1 h2) _
      · exact ((isortBy_perm _ _).trans hpf).trans (isortBy_perm _ _).symm
    rw [hsort]

/-- C3 (witness): the amended theorem applied to a two-candidate bucket
and its swap. -/
theorem C3_witness :
    (([cW1, cW2] : List Cand) ~ [cW2, cW1]) ∧
    (∀ a ∈ ([cW1, cW2] : List Cand), ∀ b ∈ ([cW1, cW2] : List Cand),
      rank_candidate m_default a = rank_candidate m_default b → a = b) ∧
    finish_mention m_default infoW [cW1, cW2] =
      finish_mention m_default infoW [cW2, cW1] := by
  have hp : ([cW1, cW2] : List Cand) ~ [cW2, cW1] := List.Perm.swap cW2 cW1 []
  have hne : ¬ rank_candidate m_default cW1 = rank_candidate m_default cW2 := by decide
  have hinj : ∀ a ∈ ([cW1, cW2] : List Cand), ∀ b ∈ ([cW1, cW2] : List Cand),
      rank_candidate m_default a = rank_candidate m_default b → a = b := by
    intro a ha b hb h
    rcases List.mem_cons.mp ha with h1 | h1
    · rcases List.mem_cons.mp hb with h2 | h2
      · rw [h1, h2]
      · have h2' : b = cW2 := by simpa using h2
        subst h1; subst h2'
        exact absurd h hne
    · have h1' : a = cW2 := by simpa using h1
      rcases List.mem_cons.mp hb with h2 | h2
      · subst h1'; subst h2
        exact absurd h.symm hne
      · have h2' : b = cW2 := by simpa using h2
        rw [h1', h2']
  exact ⟨hp, hinj, C3_theorem m_default _ _ _ hp hinj⟩

/-! ## Claim C1: the full ranking contract -/

/-- `rankLeB` is unchanged when the third (source-rank) components are
replaced by values whose pairwise `≤` comparisons agree. -/
theorem rankLeB_sab_congr (k i s s' t k2 i2 s2 s2' t2 : Nat)
    (r r2 : String × String × String)
    (h12 : natLeB s s2 = natLeB s' s2') (h21 : natLeB s2 s = natLeB s2' s') :
    rankLeB (k, i, s, t, r) (k2, i2, s2, t2, r2) =
      rankLeB (k, i, s', t, r) (k2, i2, s2', t2, r2) := by
  simp only [rankLeB, rankLe2, rankLe3, lexLeB]
  rw [h12, h21]

set_option maxRecDepth 40000 in
/-- C1 (counterexample): with a 1001-entry source-preference list, the
code's 999 sentinel ranks the UNLISTED source ZZZ (999) ahead of the
listed source B (index 1000); the pipeline picks CUI C2 from the ZZZ row
as best, while sorting by the key exactly as claimed (absent sources after
every listed source) would pick C1 from the B row. -/
theorem C1_counterexample :
    (lookupResult (map_mentions_to_cui m_bigpref ["x"] tyNone
        [row_sabB, row_sabZ]) "x").map GroundingResult.best_cui =
      some (some "C2") ∧
    (lookupResult (claim_map_mentions_to_cui m_bigpref ["x"] tyNone
        [row_sabB, row_sabZ]) "x").map GroundingResult.best_cui =
      some (some "C1") ∧
    ¬ map_mentions_to_cui m_bigpref ["x"] tyNone [row_sabB, row_sabZ] =
      claim_map_mentions_to_cui m_bigpref ["x"] tyNone [row_sabB, row_sabZ] := by
  refine ⟨by decide, by decide, by decide⟩

/-- C1 (amended): the ranker sorts ascending by the claimed composite key
with one amendment — absent sources rank at the fixed sentinel 999, which
places them after every listed source only when the configured preference
list has at most 999 entries (always true of the 3-entry default). Under
that bound the code's pipeline coincides with the claimed pipeline
(sort by composite key, truncate to top_k, best CUI from the first
retained candidate, none when empty) on every input. -/
theorem C1_theorem (m : UMLSExactMatcher) (pref : List String)
    (hm : m.sab_preference = some pref) (hlen : pref.length ≤ 999)
    (mentions : List String) (types : String → List String)
    (file : List String) :
    map_mentions_to_cui m mentions types file =
      claim_map_mentions_to_cui m mentions types file := by
  have hsab : ∀ s1 s2 : String,
      natLeB (sab_rank m s1) (sab_rank m s2) =
        natLeB (claim_sab_rank m s1) (claim_sab_rank m s2) := by
    intro s1 s2
    unfold sab_rank claim_sab_rank
    rw [hm]
    dsimp only
    by_cases h1 : s1 ∈ pref
    · by_cases h2 : s2 ∈ pref
      · rw [if_pos h1, if_pos h2, if_pos h1, if_pos h2]
      · rw [if_pos h1, if_neg h2, if_pos h1, if_neg h2]
        have hi : pref.indexOf s1 < pref.length := List.indexOf_lt_length.mpr h1
        unfold natLeB
        rw [decide_eq_decide]
        omega
    · by_cases h2 : s2 ∈ pref
      · rw [if_neg h1, if_pos h2, if_neg h1, if_pos h2]
        have hi : pref.indexOf s2 < pref.length := List.indexOf_lt_length.mpr h2
        unfold natLeB
        rw [decide_eq_decide]
        omega
      · rw [if_neg h1, if_neg h2, if_neg h1, if_neg h2]
        unfold natLeB
        rw [decide_eq_decide]
        omega
  have hcomp : candLeB m = claim_candLeB m := by
    funext a b
    unfold candLeB claim_candLeB rank_candidate claim_rank_candidate
    exact rankLeB_sab_congr _ _ _ _ _ _ _ _ _ _ _ _
      (hsab a.sab b.sab) (hsab b.sab a.sab)
  have hfin : ∀ info cands,
      finish_mention m info cands = claim_finish_mention m info cands := by
    intro info cands
    unfold finish_mention claim_finish_mention
    rw [hcomp]
  unfold map_mentions_to_cui claim_map_mentions_to_cui
  simp only [hfin]

/-- C1 (witness): the amended equivalence at the default matcher (3-entry
preference list) over one row. -/
theorem C1_witness :
    m_default.sab_preference = some ["SNOMEDCT_US", "RXNORM", "MSH"] ∧
    (["SNOMEDCT_US", "RXNORM", "MSH"] : List String).length ≤ 999 ∧
    map_mentions_to_cui m_default ["x"] tyNone [row_x_Y] =
      claim_map_mentions_to_cui m_default ["x"] tyNone [row_x_Y] :=
  ⟨rfl, by decide,
    C1_theorem m_default ["SNOMEDCT_US", "RXNORM", "MSH"] rfl (by decide)
      ["x"] tyNone [row_x_Y]⟩

/-! ## Claim C2: measurement exclusion -/

theorem lookupResult_map (f : String → GroundingResult) (l : List String)
    (mm : String) :
    lookupResult (l.map (fun x => (x, f x))) mm =
      if mm ∈ l then some (f mm) else none := by
  induction l with
  | nil => simp [lookupResult]
  | cons x xs ih =>
    simp only [List.map_cons, lookupResult]
    by_cases hx : x = mm
    · subst hx
      simp
    · rw [if_neg hx, ih]
      by_cases hmm : mm ∈ xs
      · rw [if_pos hmm, if_pos (List.mem_cons.mpr (Or.inr hmm))]
      · rw [if_neg hmm, if_neg ?_]
        intro hmem
        rcases List.mem_cons.mp hmem with h | h
        · exact hx h.symm
        · exact hmm h

theorem mem_sortedDedupStr {s : String} {l : List String} :
    s ∈ sortedDedupStr l ↔ s ∈ l := by
  unfold sortedDedupStr
  rw [(isortBy_perm strLeB l.dedup).mem_iff, List.mem_dedup]

/-- A measurement-like mention's bucket is never appended to by the inner
scan loop (line 201-202 of the source: the mention is skipped). -/
theorem innerStep_measure_bucket (mkeys : String → KeysInfo)
    (cui sab tty ispref srow sKey : String) (mm : String)
    (hmeas : (mkeys mm).is_measurement = true) :
    ∀ (pairs : List (String × String)) (st : ScanState), st.buckets mm = [] →
      (pairs.foldl (innerStep mkeys cui sab tty ispref srow sKey) st).buckets mm
        = [] := by
  intro pairs
  induction pairs with
  | nil => intro st h; exact h
  | cons p ps ih =>
    intro st h
    rw [List.foldl_cons]
    apply ih
    unfold innerStep
    by_cases hp : (mkeys p.1).is_measurement = true
    · rw [if_pos hp]; exact h
    · rw [if_neg hp]
      by_cases hseen : (p.1, cui, sab, tty) ∈ st.seen_pairs
      · rw [if_pos hseen]; exact h
      · rw [if_neg hseen]
        dsimp only
        have hne : ¬ mm = p.1 := by
          intro he
          rw [he] at hmeas
          exact hp hmeas
        rw [if_neg hne]
        exact h

theorem scanLine_measure_bucket (keyMap : String → List (String × String))
    (mkeys : String → KeysInfo) (line : String) (mm : String)
    (hmeas : (mkeys mm).is_measurement = true) (st : ScanState)
    (h : st.buckets mm = []) :
    (scanLine keyMap mkeys st line).buckets mm = [] := by
  unfold scanLine
  by_cases h1 : (pySplitBar ⟨rstripNl line.data⟩).length < 15
  · rw [if_pos h1]; exact h
  · rw [if_neg h1]
    by_cases h2 : ¬ (pySplitBar ⟨rstripNl line.data⟩).getD 1 "" = "ENG"
    · rw [if_pos h2]; exact h
    · rw [if_neg h2]
      exact innerStep_measure_bucket mkeys _ _ _ _ _ _ mm hmeas _ st h

theorem scan_all_measure_bucket (mentions : List String)
    (types : String → List String) (file : List String) (mm : String)
    (hmeas : (mention_keys_fn types mm).is_measurement = true) :
    (scan_all mentions types file).buckets mm = [] := by
  unfold scan_all
  generalize hst : (⟨[], fun _ => []⟩ : ScanState) = st0
  have h0 : st0.buckets mm = [] := by rw [← hst]
  clear hst
  induction file generalizing st0 with
  | nil => exact h0
  | cons line rest ih =>
    rw [List.foldl_cons]
    exact ih _ (scanLine_measure_bucket _ _ line mm hmeas st0 h0)

/-- C2: for every reference file and every batch mention whose canonical
form matches the measurement pattern `\b\d+(\.\d+)?\s*(mm|cm|m)\b`, the
result is best CUI none, excluded reason "measurement_like" and an empty
candidate list, and the scan records no candidate evidence for the
mention. -/
theorem C2_theorem (m : UMLSExactMatcher) (mentions : List String)
    (types : String → List String) (file : List String) (mention : String)
    (hmem : mention ∈ mentions)
    (hmeas : MEAS_RE_search (canonicalize_surface mention) = true) :
    lookupResult (map_mentions_to_cui m mentions types file) mention =
      some ⟨none, [], sortedDedupStr (types mention), some "measurement_like"⟩ ∧
    (scan_all mentions types file).buckets mention = [] := by
  have hkm : (mention_keys_fn types mention).is_measurement = true := hmeas
  constructor
  · unfold map_mentions_to_cui
    rw [lookupResult_map
      (fun mm => finish_mention m (mention_keys_fn types mm)
        ((scan_all mentions types file).buckets mm))]
    rw [if_pos (mem_sortedDedupStr.mpr hmem)]
    unfold finish_mention
    rw [if_pos hkm]
    rfl
  · exact scan_all_measure_bucket mentions types file mention hkm

/-- C2 (witness): the mention "3.5 cm" over a file that contains a row
whose surface string is exactly "3.5 cm". -/
theorem C2_witness :
    ("3.5 cm" ∈ (["3.5 cm"] : List String)) ∧
    MEAS_RE_search (canonicalize_surface "3.5 cm") = true ∧
    (lookupResult (map_mentions_to_cui m_default ["3.5 cm"] tyNone [row_meas])
        "3.5 cm" =
      some ⟨none, [], sortedDedupStr (tyNone "3.5 cm"), some "measurement_like"⟩ ∧
     (scan_all ["3.5 cm"] tyNone [row_meas]).buckets "3.5 cm" = []) :=
  ⟨by decide, by decide,
    C2_theorem m_default ["3.5 cm"] tyNone [row_meas] "3.5 cm" (by decide)
      (by decide)⟩

/-! ## Claim C9: the two-phase single-scan batch contract -/

theorem sortedDedupStr_singleton (s : String) : sortedDedupStr [s] = [s] := by
  unfold sortedDedupStr
  have h : ([s] : List String).dedup = [s] := by simp
  rw [h]
  rfl

theorem sortedDedupStr_nodup (l : List String) : (sortedDedupStr l).Nodup :=
  (isortBy_perm strLeB l.dedup).symm.nodup (List.nodup_dedup l)

theorem mentionEntries_fst (mkeys : String → KeysInfo) (x k : String) :
    ∀ p ∈ mentionEntries mkeys x k, p.1 = x := by
  intro p hp
  unfold mentionEntries at hp
  rcases List.mem_filterMap.mp hp with ⟨q, _, hfq⟩
  by_cases h : q.2 = k
  · rw [if_pos h] at hfq
    cases hfq
    rfl
  · rw [if_neg h] at hfq
    cases hfq

theorem key_to_mentions_singleton (mkeys : String → KeysInfo) (mm k : String) :
    key_to_mentions [mm] mkeys k = mentionEntries mkeys mm k := by
  unfold key_to_mentions
  simp

/-- Restricting the batch key map to one mention's entries recovers that
mention's solo key map. -/
theorem key_to_mentions_filter (mkeys : String → KeysInfo) (mm k : String) :
    ∀ (uniq : List String), mm ∈ uniq → uniq.Nodup →
      (key_to_mentions uniq mkeys k).filter (fun p => decide (p.1 = mm)) =
        mentionEntries mkeys mm k := by
  intro uniq
  induction uniq with
  | nil => intro hmem; cases hmem
  | cons x xs ih =>
    intro hmem hnd
    unfold key_to_mentions
    rw [List.map_cons, List.flatten_cons, List.filter_append]
    rcases List.mem_cons.mp hmem with hx | hx
    · subst hx
      have h1 : (mentionEntries mkeys mm k).filter (fun p => decide (p.1 = mm)) =
          mentionEntries mkeys mm k := by
        apply List.filter_eq_self.mpr
        intro p hp
        simpa using mentionEntries_fst mkeys mm k p hp
      have hnotin : mm ∉ xs := (List.nodup_cons.mp hnd).1
      have h2 : ((xs.map (fun y => mentionEntries mkeys y k)).flatten).filter
          (fun p => decide (p.1 = mm)) = [] := by
        apply List.filter_eq_nil_iff.mpr
        intro p hp
        rcases List.mem_flatten.mp hp with ⟨lsub, hlsub, hpl⟩
        rcases List.mem_map.mp hlsub with ⟨y, hy, rfl⟩
        have hpy : p.1 = y := mentionEntries_fst mkeys y k p hpl
        simp only [hpy, decide_eq_true_eq]
        intro he
        exact hnotin (he ▸ hy)
      rw [h1, h2, List.append_nil]
    · have hxne : ¬ x = mm := fun he => (List.nodup_cons.mp hnd).1 (he ▸ hx)
      have h1 : (mentionEntries mkeys x k).filter (fun p => decide (p.1 = mm)) = [] := by
        apply List.filter_eq_nil_iff.mpr
        intro p hp
        have hpx : p.1 = x := mentionEntries_fst mkeys x k p hp
        simp only [hpx, decide_eq_true_eq]
        exact hxne
      rw [h1, List.nil_append]
      have := ih hx (List.nodup_cons.mp hnd).2
      unfold key_to_mentions at this
      exact this

/-- The inner scan loop touches mention `mm`'s observable state only at
`mm`'s own entries, so the batch fold and the solo fold (over the
`mm`-filtered pairs) stay related. -/
theorem innerStep_rel (mkeys : String → KeysInfo)
    (cui sab tty ispref srow sKey mm : String) :
    ∀ (pairs : List (String × String)) (stB stS : ScanState),
      RelAt mm stB stS →
      RelAt mm (pairs.foldl (innerStep mkeys cui sab tty ispref srow sKey) stB)
        ((pairs.filter (fun p => decide (p.1 = mm))).foldl
          (innerStep mkeys cui sab tty ispref srow sKey) stS) := by
  intro pairs
  induction pairs with
  | nil => intro stB stS h; exact h
  | cons p ps ih =>
    intro stB stS h
    rw [List.foldl_cons, List.filter_cons]
    by_cases hp : p.1 = mm
    · rw [if_pos (by simpa using hp), List.foldl_cons]
      apply ih
      unfold innerStep
      by_cases hmeas : (mkeys p.1).is_measurement = true
      · rw [if_pos hmeas, if_pos hmeas]
        exact h
      · rw [if_neg hmeas, if_neg hmeas]
        have hseen_iff : ((p.1, cui, sab, tty) ∈ stB.seen_pairs) ↔
            ((p.1, cui, sab, tty) ∈ stS.seen_pairs) := by
          rw [hp]
          exact h.2 cui sab tty
        by_cases hseenB : (p.1, cui, sab, tty) ∈ stB.seen_pairs
        · rw [if_pos hseenB, if_pos (hseen_iff.mp hseenB)]
          exact h
        · rw [if_neg hseenB, if_neg (fun hs => hseenB (hseen_iff.mpr hs))]
          constructor
          · dsimp only
            have hmmp : mm = p.1 := hp.symm
            rw [if_pos hmmp, if_pos hmmp, ← hmmp, h.1]
          · intro c s t
            dsimp only
            simp only [List.mem_cons]
            exact or_congr Iff.rfl (h.2 c s t)
    · rw [if_neg (by simpa using hp)]
      apply ih
      unfold innerStep
      by_cases hmeas : (mkeys p.1).is_measurement = true
      · rw [if_pos hmeas]
        exact h
      · rw [if_neg hmeas]
        by_cases hseenB : (p.1, cui, sab, tty) ∈ stB.seen_pairs
        · rw [if_pos hseenB]
          exact h
        · rw [if_neg hseenB]
          constructor
          · dsimp only
            rw [if_neg (fun he => hp he.symm)]
            exact h.1
          · intro c s t
            dsimp only
            simp only [List.mem_cons]
            have hne : ¬ ((mm, c, s, t) = (p.1, cui, sab, tty)) := by
              intro he
              exact hp (congrArg Prod.fst he).symm
            constructor
            · rintro (he | hmem2)
              · exact absurd he hne
              · exact (h.2 c s t).mp hmem2
            · intro hmem2
              exact Or.inr ((h.2 c s t).mpr hmem2)

theorem scanLine_rel (uniq : List String) (mkeys : String → KeysInfo)
    (mm line : String) (hmem : mm ∈ uniq) (hnd : uniq.Nodup)
    (stB stS : ScanState) (h : RelAt mm stB stS) :
    RelAt mm (scanLine (key_to_mentions uniq mkeys) mkeys stB line)
      (scanLine (key_to_mentions [mm] mkeys) mkeys stS line) := by
  unfold scanLine
  by_cases h1 : (pySplitBar ⟨rstripNl line.data⟩).length < 15
  · rw [if_pos h1, if_pos h1]
    exact h
  · rw [if_neg h1, if_neg h1]
    by_cases h2 : ¬ (pySplitBar ⟨rstripNl line.data⟩).getD 1 "" = "ENG"
    · rw [if_pos h2, if_pos h2]
      exact h
    · rw [if_neg h2, if_neg h2]
      rw [key_to_mentions_singleton]
      rw [← key_to_mentions_filter mkeys mm _ uniq hmem hnd]
      exact innerStep_rel mkeys _ _ _ _ _ _ mm _ stB stS h

theorem scan_all_rel (mentions : List String) (types : String → List String)
    (file : List String) (mm : String) (hmem : mm ∈ mentions) :
    RelAt mm (scan_all mentions types file) (scan_all [mm] types file) := by
  unfold scan_all
  rw [sortedDedupStr_singleton]
  have hmem' : mm ∈ sortedDedupStr mentions := mem_sortedDedupStr.mpr hmem
  have hnd : (sortedDedupStr mentions).Nodup := sortedDedupStr_nodup mentions
  suffices H : ∀ (fl : List String) (stB stS : ScanState), RelAt mm stB stS →
      RelAt mm
        (fl.foldl (scanLine
          (key_to_mentions (sortedDedupStr mentions) (mention_keys_fn types))
          (mention_keys_fn types)) stB)
        (fl.foldl (scanLine (key_to_mentions [mm] (mention_keys_fn types))
          (mention_keys_fn types)) stS) by
    exact H file _ _ ⟨rfl, fun c s t => Iff.rfl⟩
  intro fl
  induction fl with
  | nil => intro stB stS h; exact h
  | cons line rest ih =>
    intro stB stS h
    rw [List.foldl_cons, List.foldl_cons]
    exact ih _ _ (scanLine_rel _ (mention_keys_fn types) mm line hmem' hnd stB stS h)

/-- C9: the batch computation refines the per-mention specification: the
batch is deduplicated (the pipeline runs over `sorted(set(mentions))`),
the shared key map is built once and the reference file is folded over
exactly once for the whole batch (`scan_all` is a single `foldl` over the
lines), and each mention's result — assembled independently from its own
bucket — equals what a solo run for just that mention over the same file
produces. -/
theorem C9_theorem (m : UMLSExactMatcher) (mentions : List String)
    (types : String → List String) (file : List String) (mm : String)
    (hmem : mm ∈ mentions) :
    lookupResult (map_mentions_to_cui m mentions types file) mm =
      lookupResult (map_mentions_to_cui m [mm] types file) mm := by
  unfold map_mentions_to_cui
  rw [lookupResult_map (fun x => finish_mention m (mention_keys_fn types x)
        ((scan_all mentions types file).buckets x))]
  rw [lookupResult_map (fun x => finish_mention m (mention_keys_fn types x)
        ((scan_all [mm] types file).buckets x))]
  rw [sortedDedupStr_singleton]
  rw [if_pos (mem_sortedDedupStr.mpr hmem), if_pos (List.mem_singleton_self mm)]
  have hrel := scan_all_rel mentions types file mm hmem
  rw [hrel.1]

/-- C9 (witness): the batch `["x", "y"]` and the solo batch `["x"]` agree
on mention "x" over a one-row file. -/
theorem C9_witness :
    ("x" ∈ (["x", "y"] : List String)) ∧
    lookupResult (map_mentions_to_cui m_default ["x", "y"] tyNone [row_x_Y]) "x" =
      lookupResult (map_mentions_to_cui m_default ["x"] tyNone [row_x_Y]) "x" :=
  ⟨by decide, C9_theorem m_default ["x", "y"] tyNone [row_x_Y] "x" (by decide)⟩

end KnowCLIP
